import Mathlib

/-!
Verification of the cspfun binary-CSP solver.

This file gives a shallow embedding of the state and operations of
`BinaryCSP` (csp.py), of the priority function of backtracking_search.py and
of the solution test used by the local-search loop (local_search.py), and
proves the specification claims about them.

Modelling conventions: Python `None` becomes `Option.none`; the constraint
dictionary becomes an association list keyed by variable pairs; functions that
raise exceptions return `Except String`; Python 2 integer division is `Nat`
division; the float arithmetic of `bts_priority` is modelled exactly over `ℚ`.
-/

/-- Problem state, mirroring class `BinaryCSP` of csp.py: `domains` lists the
candidate values of each variable, `values` holds the partial assignment
(`none` is Python's `None`), `constraints` is the dictionary mapping a pair of
variables to the predicate between them, and the two flags select the
propagation mode. -/
structure BinaryCSP (V : Type) where
  domains : List (List V)
  values : List (Option V)
  constraints : List ((Nat × Nat) × (V → V → Bool))
  use_forward_checking : Bool
  use_arc_consistency : Bool

namespace BinaryCSP

variable {V : Type}

/-- Dictionary lookup on the constraint table (`self.constraints[key]` /
`key in self.constraints` in csp.py). -/
def lookupC (k : Nat × Nat) : List ((Nat × Nat) × (V → V → Bool)) → Option (V → V → Bool)
  | [] => none
  | (k2, c) :: rest => if k = k2 then some c else lookupC k rest

/-- `BinaryCSP.conflicted` (csp.py lines 40-53): false if either value is
unassigned or no constraint is stored under the canonical `(min, max)` key;
otherwise the stored predicate is applied, with its arguments swapped when
`var1` is not the lower variable. -/
def conflicted (p : BinaryCSP V) (var1 : Nat) (val1 : Option V) (var2 : Nat)
    (val2 : Option V) : Bool :=
  match val1, val2 with
  | some v1, some v2 =>
    match lookupC (min var1 var2, max var1 var2) p.constraints with
    | none => false
    | some c => if var1 < var2 then !(c v1 v2) else !(c v2 v1)
  | _, _ => false

/-- `BinaryCSP.num_conflicts` (csp.py): how many other variables' current
values conflict with the assignment `var = val`. -/
def num_conflicts (p : BinaryCSP V) (var : Nat) (val : Option V) : Nat :=
  ((List.range p.values.length).filter
    (fun var2 => decide (var2 ≠ var) &&
      p.conflicted var val var2 (p.values.getD var2 none))).length

/-- `BinaryCSP.total_conflicts` (csp.py): the per-variable conflict counts are
summed and halved with Python 2 integer division. -/
def total_conflicts (p : BinaryCSP V) : Nat :=
  ((List.range p.values.length).map
    (fun var => p.num_conflicts var (p.values.getD var none))).sum / 2

/-- `BinaryCSP.is_solution` (csp.py): every variable assigned and every stored
constraint satisfied by the assigned values. -/
def is_solution (p : BinaryCSP V) : Bool :=
  !(p.values.any (fun v => v.isNone)) &&
    p.constraints.all (fun kv =>
      match p.values.getD kv.1.1 none, p.values.getD kv.1.2 none with
      | some va, some vb => kv.2 va vb
      | _, _ => false)

/-- The support test inside `BinaryCSP.enforce_arc`: a tail value is kept when
some value of the head's domain does not conflict with it (`False in
[self.conflicted(...) for head_val in self.domains[head]]` in csp.py). -/
def hasSupport (p : BinaryCSP V) (tail head : Nat) (tail_val : V) : Bool :=
  (p.domains.getD head []).any
    (fun head_val => !(p.conflicted tail (some tail_val) head (some head_val)))

/-- `BinaryCSP.enforce_arc` (csp.py lines 85-101): if a constraint exists for
the pair, keep in the tail's domain exactly the values having a
non-conflicting partner in the head's domain, and report whether the tail's
domain shrank. -/
def enforce_arc (p : BinaryCSP V) (tail head : Nat) : BinaryCSP V × Bool :=
  match lookupC (min tail head, max tail head) p.constraints with
  | none => (p, false)
  | some _ =>
    let new_tail_domain := (p.domains.getD tail []).filter (p.hasSupport tail head)
    let domain_reduced := decide (new_tail_domain.length < (p.domains.getD tail []).length)
    ({ p with domains := p.domains.set tail new_tail_domain }, domain_reduced)

/-- The arcs re-enqueued by `run_arc_consistency` after the tail's domain
shrank: every `(var, tail)` with `var ≠ tail` that is not already pending. -/
def requeue (p : BinaryCSP V) (tail : Nat) (rest : List (Nat × Nat)) : List (Nat × Nat) :=
  ((List.range p.values.length).filter
    (fun var => decide (var ≠ tail) && !(decide ((var, tail) ∈ rest)))).map
    (fun var => (var, tail))

/-- Total number of domain values, the termination measure of the AC worklist. -/
def domSize (p : BinaryCSP V) : Nat := (p.domains.map List.length).sum

/-- `(l.set i x).getD i d = x` for an in-range index. -/
theorem getD_set_self (l : List α) (i : Nat) (x : α) (d : α) (h : i < l.length) :
    (l.set i x).getD i d = x := by
  induction l generalizing i with
  | nil => simp at h
  | cons a t ih =>
    cases i with
    | zero => rfl
    | succ n => exact ih n (by simpa using h)

/-- Setting index `i` does not change `getD` at another index. -/
theorem getD_set_ne (l : List α) (i j : Nat) (x : α) (d : α) (h : i ≠ j) :
    (l.set i x).getD j d = l.getD j d := by
  induction l generalizing i j with
  | nil => rfl
  | cons a t ih =>
    cases i with
    | zero => cases j with
      | zero => exact absurd rfl h
      | succ m => rfl
    | succ n => cases j with
      | zero => rfl
      | succ m => simpa using ih n m (by omega)

/-- Writing back the value read at an index is the identity. -/
theorem set_getD_cancel (l : List α) (i : Nat) (d : α) :
    l.set i (l.getD i d) = l := by
  induction l generalizing i with
  | nil => rfl
  | cons a t ih =>
    cases i with
    | zero => rfl
    | succ n => simpa using ih n

theorem sum_map_length_set_le (l : List (List α)) (i : Nat) (x : List α)
    (h : x.length ≤ (l.getD i []).length) :
    ((l.set i x).map List.length).sum ≤ (l.map List.length).sum := by
  induction l generalizing i with
  | nil => simp
  | cons a t ih =>
    cases i with
    | zero =>
      simp only [List.set_cons_zero, List.map_cons, List.sum_cons]
      exact Nat.add_le_add_right (by simpa using h) _
    | succ n =>
      simp only [List.set_cons_succ, List.map_cons, List.sum_cons]
      exact Nat.add_le_add_left (ih n (by simpa using h)) _

theorem sum_map_length_set_lt (l : List (List α)) (i : Nat) (x : List α)
    (hi : i < l.length) (h : x.length < (l.getD i []).length) :
    ((l.set i x).map List.length).sum < (l.map List.length).sum := by
  induction l generalizing i with
  | nil => simp at hi
  | cons a t ih =>
    cases i with
    | zero =>
      simp only [List.set_cons_zero, List.map_cons, List.sum_cons]
      exact Nat.add_lt_add_right (by simpa using h) _
    | succ n =>
      simp only [List.set_cons_succ, List.map_cons, List.sum_cons]
      exact Nat.add_lt_add_left (ih n (by simpa using hi) (by simpa using h)) _

/-- `enforce_arc` never touches the assignment. -/
theorem enforce_arc_values (p : BinaryCSP V) (t h : Nat) :
    (p.enforce_arc t h).1.values = p.values := by
  unfold enforce_arc
  cases lookupC (min t h, max t h) p.constraints <;> rfl

/-- `enforce_arc` never touches the constraint table. -/
theorem enforce_arc_constraints (p : BinaryCSP V) (t h : Nat) :
    (p.enforce_arc t h).1.constraints = p.constraints := by
  unfold enforce_arc
  cases lookupC (min t h, max t h) p.constraints <;> rfl

/-- When `enforce_arc` reports no reduction, the state is unchanged. -/
theorem enforce_arc_snd_false (p : BinaryCSP V) (t h : Nat)
    (hf : (p.enforce_arc t h).2 = false) : (p.enforce_arc t h).1 = p := by
  unfold enforce_arc at hf ⊢
  cases hl : lookupC (min t h, max t h) p.constraints with
  | none => simp only [hl]
  | some c =>
    simp only [hl, decide_eq_false_iff_not, Nat.not_lt] at hf
    have hsub : ((p.domains.getD t []).filter (p.hasSupport t h)).Sublist
        (p.domains.getD t []) := List.filter_sublist _
    have hlen := Nat.le_antisymm hsub.length_le hf
    have heq := hsub.eq_of_length hlen
    simp only [hl, heq, set_getD_cancel]

/-- A reported reduction strictly decreases the total domain size. -/
theorem enforce_arc_domSize_lt (p : BinaryCSP V) (t h : Nat)
    (hf : (p.enforce_arc t h).2 = true) : domSize (p.enforce_arc t h).1 < domSize p := by
  unfold enforce_arc at hf ⊢
  cases hl : lookupC (min t h, max t h) p.constraints with
  | none => simp [hl] at hf
  | some c =>
    simp only [hl, decide_eq_true_eq] at hf
    simp only [hl]
    have ht : t < p.domains.length := by
      by_contra hge
      have : p.domains.getD t [] = [] := List.getD_eq_default _ _ (by omega)
      rw [this] at hf
      simp at hf
    exact sum_map_length_set_lt _ _ _ ht hf

/-- Total domain size never grows under `enforce_arc`. -/
theorem enforce_arc_domSize_le (p : BinaryCSP V) (t h : Nat) :
    domSize (p.enforce_arc t h).1 ≤ domSize p := by
  unfold enforce_arc
  cases lookupC (min t h, max t h) p.constraints with
  | none => exact Nat.le_refl _
  | some c =>
    simp only []
    exact sum_map_length_set_le _ _ _ (List.filter_sublist _).length_le

/-- `BinaryCSP.run_arc_consistency` (csp.py lines 112-120): the AC-3 worklist
loop.  Pops the front arc, enforces it, and on a reduction re-enqueues every
arc pointing into the reduced tail that is not already pending. -/
def run_arc_consistency (p : BinaryCSP V) (arcs : List (Nat × Nat)) : BinaryCSP V :=
  match arcs with
  | [] => p
  | (tail, head) :: rest =>
    let pr := p.enforce_arc tail head
    if hr : pr.2 = true then
      run_arc_consistency pr.1 (rest ++ requeue pr.1 tail rest)
    else
      run_arc_consistency pr.1 rest
termination_by (domSize p, arcs.length)
decreasing_by
  · exact Prod.Lex.left _ _ (enforce_arc_domSize_lt p tail head hr)
  · rw [enforce_arc_snd_false p tail head (by simpa using hr)]
    exact Prod.Lex.right _ (Nat.lt_succ_self _)

/-- Initial worklist of `BinaryCSP.check_all_arcs`: every ordered pair of
distinct variables. -/
def all_arcs (n : Nat) : List (Nat × Nat) :=
  (List.range n).flatMap
    (fun tail => ((List.range n).filter (fun head => decide (head ≠ tail))).map
      (fun head => (tail, head)))

/-- `BinaryCSP.check_all_arcs` (csp.py lines 123-125). -/
def check_all_arcs (p : BinaryCSP V) : BinaryCSP V :=
  p.run_arc_consistency (all_arcs p.values.length)

/-- The sequence of arc enforcements performed by `BinaryCSP.forward_check`
for an updated variable. -/
def forward_check_run (p : BinaryCSP V) (var : Nat) : BinaryCSP V :=
  ((List.range p.values.length).filter (fun v2 => decide (v2 ≠ var))).foldl
    (fun q tail => (q.enforce_arc tail var).1) p

/-- `BinaryCSP.forward_check` (csp.py): raises on an unassigned variable,
otherwise enforces every arc pointing into `var`. -/
def forward_check (p : BinaryCSP V) (var : Nat) : Except String (BinaryCSP V) :=
  match p.values.getD var none with
  | none => Except.error "Cannot forward check on unassigned variable"
  | some _ => Except.ok (forward_check_run p var)

/-- The first two mutations of `BinaryCSP.set_var_val`: record the assignment
and collapse the variable's domain to the single assigned value. -/
def collapse (p : BinaryCSP V) (var : Nat) (val : V) : BinaryCSP V :=
  { p with values := p.values.set var (some val), domains := p.domains.set var [val] }

/-- The arcs `(tail, var)` used to seed arc consistency after assigning `var`. -/
def arcs_into (p : BinaryCSP V) (var : Nat) : List (Nat × Nat) :=
  ((List.range p.values.length).filter (fun tail => decide (tail ≠ var))).map
    (fun tail => (tail, var))

/-- `BinaryCSP.set_var_val` (csp.py lines 26-34): raise if the value is not in
the variable's current domain, otherwise assign, collapse the domain and run
the active propagation mode. -/
def set_var_val [DecidableEq V] (p : BinaryCSP V) (var : Nat) (val : V) :
    Except String (BinaryCSP V) :=
  if val ∈ p.domains.getD var [] then
    let p1 := collapse p var val
    if p1.use_forward_checking then
      forward_check p1 var
    else if p1.use_arc_consistency then
      Except.ok (p1.run_arc_consistency (arcs_into p1 var))
    else
      Except.ok p1
  else
    Except.error "value is not in the domain of the variable"

/-- `BinaryCSP.copy` (csp.py): fresh copies of the domain lists and the value
list, sharing the constraint table and the mode flags. -/
def copy (p : BinaryCSP V) : BinaryCSP V :=
  { domains := p.domains.map (fun d => d), values := p.values,
    constraints := p.constraints,
    use_forward_checking := p.use_forward_checking,
    use_arc_consistency := p.use_arc_consistency }

/-- The invariant claimed by the spec: every assigned variable's domain is
exactly the one-element sequence holding its assigned value. -/
def AssignedInv (p : BinaryCSP V) : Prop :=
  ∀ i, i < p.values.length → ∀ v, p.values.getD i none = some v →
    p.domains.getD i [] = [v]

/-- `values.count(None)` of local_search.py / backtracking_search.py. -/
def unassigned_count (p : BinaryCSP V) : Nat :=
  (p.values.filter (fun v => v.isNone)).length

/-- Count of stored constraints violated by the current assignment (pairs
with an unassigned member not counted).  This is the specification-side
quantity that `total_conflicts` is claimed to compute. -/
def violatesEntry (p : BinaryCSP V) (kv : (Nat × Nat) × (V → V → Bool)) : Bool :=
  match p.values.getD kv.1.1 none, p.values.getD kv.1.2 none with
  | some va, some vb => !(kv.2 va vb)
  | _, _ => false

def violated_pairs_count (p : BinaryCSP V) : Nat :=
  (p.constraints.filter (violatesEntry p)).length

/-- The per-pair conflict test counted by `num_conflicts` at the current
assignment: variable `b` currently conflicts with variable `a`. -/
def conflictsWith (p : BinaryCSP V) (a b : Nat) : Bool :=
  decide (b ≠ a) &&
    p.conflicted a (p.values.getD a none) b (p.values.getD b none)

/-- `bts_priority` (backtracking_search.py lines 27-28), with the Python float
arithmetic modelled exactly over the rationals:
`values.count(None) + float(i) / n`. -/
def bts_priority (p : BinaryCSP V) (i n : Nat) : ℚ :=
  (unassigned_count p : ℚ) + (i : ℚ) / (n : ℚ)

/-- Fuel-indexed transcription of the `run_arc_consistency` worklist loop:
`none` means the loop was still running when the fuel ran out. -/
def run_arc_consistency_fuel (fuel : Nat) (p : BinaryCSP V) (arcs : List (Nat × Nat)) :
    Option (BinaryCSP V) :=
  match fuel with
  | 0 => none
  | fuel + 1 =>
    match arcs with
    | [] => some p
    | (tail, head) :: rest =>
      let pr := p.enforce_arc tail head
      if pr.2 = true then
        run_arc_consistency_fuel fuel pr.1 (rest ++ requeue pr.1 tail rest)
      else
        run_arc_consistency_fuel fuel pr.1 rest

/-- An arc lookup can also fail, in which case `enforce_arc` is the identity
and reports no change. -/
theorem enforce_arc_of_none (p : BinaryCSP V) (t h : Nat)
    (hl : lookupC (min t h, max t h) p.constraints = none) :
    p.enforce_arc t h = (p, false) := by
  unfold enforce_arc
  simp [hl]

/-- `conflicted` only consults the constraint table. -/
theorem conflicted_congr {p q : BinaryCSP V} (hc : q.constraints = p.constraints)
    (a : Nat) (x : Option V) (b : Nat) (y : Option V) :
    q.conflicted a x b y = p.conflicted a x b y := by
  unfold conflicted
  rw [hc]

/-- `hasSupport` only consults the constraint table and the head's domain. -/
theorem hasSupport_congr {p q : BinaryCSP V} (t h : Nat)
    (hc : q.constraints = p.constraints)
    (hd : q.domains.getD h [] = p.domains.getD h []) (v : V) :
    q.hasSupport t h v = p.hasSupport t h v := by
  unfold hasSupport
  rw [hd]
  simp only [conflicted_congr hc]

/-- The tail's domain after `enforce_arc`, when a constraint exists. -/
theorem enforce_arc_getD_tail (p : BinaryCSP V) (t h : Nat) (c : V → V → Bool)
    (hl : lookupC (min t h, max t h) p.constraints = some c) :
    (p.enforce_arc t h).1.domains.getD t [] =
      (p.domains.getD t []).filter (p.hasSupport t h) := by
  unfold enforce_arc
  simp only [hl]
  rcases Nat.lt_or_ge t p.domains.length with ht | ht
  · exact getD_set_self _ _ _ _ ht
  · have h0 : p.domains.getD t [] = [] := List.getD_eq_default _ _ ht
    rw [List.getD_eq_default _ _ (by simpa using ht), h0]
    rfl

/-- `enforce_arc` does not touch the domain of any other variable. -/
theorem enforce_arc_getD_ne (p : BinaryCSP V) (t h i : Nat) (hne : i ≠ t) :
    (p.enforce_arc t h).1.domains.getD i [] = p.domains.getD i [] := by
  unfold enforce_arc
  cases hl : lookupC (min t h, max t h) p.constraints with
  | none => rfl
  | some c =>
    simp only [hl]
    exact getD_set_ne _ _ _ _ _ (Ne.symm hne)

/-- Every domain after `enforce_arc` is a subsequence of what it was. -/
theorem enforce_arc_getD_sublist (p : BinaryCSP V) (t h i : Nat) :
    ((p.enforce_arc t h).1.domains.getD i []).Sublist (p.domains.getD i []) := by
  rcases eq_or_ne i t with rfl | hne
  · cases hl : lookupC (min i h, max i h) p.constraints with
    | none => rw [enforce_arc_of_none p i h hl]
    | some c =>
      rw [enforce_arc_getD_tail p i h c hl]
      exact List.filter_sublist _
  · rw [enforce_arc_getD_ne p t h i hne]

/-- The reported-no-change flag characterised: every tail value is supported. -/
theorem arcOK_iff (p : BinaryCSP V) (t h : Nat) (c : V → V → Bool)
    (hl : lookupC (min t h, max t h) p.constraints = some c) :
    (p.enforce_arc t h).2 = false ↔
      ∀ v ∈ p.domains.getD t [], p.hasSupport t h v = true := by
  unfold enforce_arc
  simp only [hl, decide_eq_false_iff_not, Nat.not_lt]
  constructor
  · intro hf
    have hsub : ((p.domains.getD t []).filter (p.hasSupport t h)).Sublist
        (p.domains.getD t []) := List.filter_sublist _
    have heq := hsub.eq_of_length (Nat.le_antisymm hsub.length_le hf)
    exact fun v hv => List.filter_eq_self.mp heq v hv
  · intro hall
    rw [List.filter_eq_self.mpr hall]

/-- Enforcing an arc whose head is elsewhere preserves an already-consistent
arc: the tail's domain can only lose values and the head's domain is
untouched. -/
theorem arcOK_enforce (p : BinaryCSP V) (t h tail head : Nat)
    (hok : (p.enforce_arc t h).2 = false) (hh : h ≠ tail) :
    ((p.enforce_arc tail head).1.enforce_arc t h).2 = false := by
  cases hf : (p.enforce_arc tail head).2 with
  | false => rw [enforce_arc_snd_false p tail head hf]; exact hok
  | true =>
    have hc : (p.enforce_arc tail head).1.constraints = p.constraints :=
      enforce_arc_constraints p tail head
    cases hl : lookupC (min t h, max t h) p.constraints with
    | none =>
      have : (p.enforce_arc tail head).1.enforce_arc t h = ((p.enforce_arc tail head).1, false) :=
        enforce_arc_of_none _ t h (by rw [hc]; exact hl)
      rw [this]
    | some c =>
      rw [arcOK_iff _ t h c (by rw [hc]; exact hl)]
      intro v hv
      have hvp : v ∈ p.domains.getD t [] :=
        (enforce_arc_getD_sublist p tail head t).subset hv
      have hs := (arcOK_iff p t h c hl).mp hok v hvp
      rw [hasSupport_congr t h hc (enforce_arc_getD_ne p tail head h hh) v]
      exact hs

/-- Immediately after enforcing an arc between two distinct variables, that
arc is consistent: every surviving tail value was kept because it has
support. -/
theorem arcOK_after_enforce (p : BinaryCSP V) (tail head : Nat) (hh : head ≠ tail) :
    ((p.enforce_arc tail head).1.enforce_arc tail head).2 = false := by
  cases hf : (p.enforce_arc tail head).2 with
  | false => rw [enforce_arc_snd_false p tail head hf]; exact hf
  | true =>
    cases hl : lookupC (min tail head, max tail head) p.constraints with
    | none =>
      rw [enforce_arc_of_none p tail head hl] at hf
      simp at hf
    | some c =>
      have hc : (p.enforce_arc tail head).1.constraints = p.constraints :=
        enforce_arc_constraints p tail head
      rw [arcOK_iff _ tail head c (by rw [hc]; exact hl)]
      intro v hv
      rw [hasSupport_congr tail head hc (enforce_arc_getD_ne p tail head head hh) v]
      rw [enforce_arc_getD_tail p tail head c hl] at hv
      exact List.of_mem_filter hv

/-- Membership in the re-enqueued arc list. -/
theorem mem_requeue (q : BinaryCSP V) (tail : Nat) (rest : List (Nat × Nat)) (v : Nat) :
    (v, tail) ∈ requeue q tail rest ↔
      v < q.values.length ∧ v ≠ tail ∧ (v, tail) ∉ rest := by
  simp [requeue, List.mem_map, List.mem_filter, List.mem_range]

/-- The worklist never changes the assignment. -/
theorem run_ac_values (p : BinaryCSP V) (arcs : List (Nat × Nat)) :
    (run_arc_consistency p arcs).values = p.values := by
  induction p, arcs using run_arc_consistency.induct with
  | case1 p => rw [run_arc_consistency]
  | case2 p tail head rest pr hr ih =>
    rw [run_arc_consistency, dif_pos hr, ih, enforce_arc_values]
  | case3 p tail head rest pr hr ih =>
    rw [run_arc_consistency, dif_neg hr, ih, enforce_arc_values]

/-- The worklist never changes the constraint table. -/
theorem run_ac_constraints (p : BinaryCSP V) (arcs : List (Nat × Nat)) :
    (run_arc_consistency p arcs).constraints = p.constraints := by
  induction p, arcs using run_arc_consistency.induct with
  | case1 p => rw [run_arc_consistency]
  | case2 p tail head rest pr hr ih =>
    rw [run_arc_consistency, dif_pos hr, ih, enforce_arc_constraints]
  | case3 p tail head rest pr hr ih =>
    rw [run_arc_consistency, dif_neg hr, ih, enforce_arc_constraints]

/-- Every domain after the worklist is a subsequence of what it was. -/
theorem run_ac_getD_sublist (p : BinaryCSP V) (arcs : List (Nat × Nat)) (i : Nat) :
    ((run_arc_consistency p arcs).domains.getD i []).Sublist (p.domains.getD i []) := by
  induction p, arcs using run_arc_consistency.induct with
  | case1 p => rw [run_arc_consistency]
  | case2 p tail head rest pr hr ih =>
    rw [run_arc_consistency, dif_pos hr]
    exact ih.trans (enforce_arc_getD_sublist p tail head i)
  | case3 p tail head rest pr hr ih =>
    rw [run_arc_consistency, dif_neg hr]
    exact ih.trans (enforce_arc_getD_sublist p tail head i)

/-- AC-3 loop invariant: an arc between in-range distinct variables is either
pending or already consistent, and this persists to the final state. -/
theorem run_ac_invariant (p : BinaryCSP V) (arcs : List (Nat × Nat)) :
    (∀ t h, t < p.values.length → h < p.values.length → t ≠ h →
        (t, h) ∈ arcs ∨ (p.enforce_arc t h).2 = false) →
      ∀ t h, t < p.values.length → h < p.values.length → t ≠ h →
        ((run_arc_consistency p arcs).enforce_arc t h).2 = false := by
  induction p, arcs using run_arc_consistency.induct with
  | case1 p =>
    intro H t h ht hh hne
    rw [run_arc_consistency]
    rcases H t h ht hh hne with hmem | hok
    · simp at hmem
    · exact hok
  | case2 p tail head rest pr hr ih =>
    intro H t h ht hh hne
    rw [run_arc_consistency, dif_pos hr]
    have hval : (p.enforce_arc tail head).1.values = p.values := enforce_arc_values p tail head
    refine ih ?_ t h (by rw [hval]; exact ht) (by rw [hval]; exact hh) hne
    intro t' h' ht' hh' hne'
    rw [hval] at ht' hh'
    have hcon : (p.enforce_arc tail head).1.constraints = p.constraints :=
      enforce_arc_constraints p tail head
    rcases H t' h' ht' hh' hne' with hmem | hok
    · rcases List.mem_cons.mp hmem with heq | hmem'
      · have h1 : t' = tail := congrArg Prod.fst heq
        have h2 : h' = head := congrArg Prod.snd heq
        subst h1; subst h2
        right
        exact arcOK_after_enforce p t' h' (Ne.symm hne')
      · rcases eq_or_ne h' tail with rfl | hnt
        · left
          by_cases hin : (t', h') ∈ rest
          · exact List.mem_append_left _ hin
          · refine List.mem_append_right _ ?_
            exact (mem_requeue _ h' rest t').mpr ⟨by rw [hval]; exact ht', hne', hin⟩
        · left
          exact List.mem_append_left _ hmem'
    · rcases eq_or_ne h' tail with rfl | hnt
      · left
        by_cases hin : (t', h') ∈ rest
        · exact List.mem_append_left _ hin
        · refine List.mem_append_right _ ?_
          exact (mem_requeue _ h' rest t').mpr ⟨by rw [hval]; exact ht', hne', hin⟩
      · right
        exact arcOK_enforce p t' h' tail head hok hnt
  | case3 p tail head rest pr hr ih =>
    intro H t h ht hh hne
    rw [run_arc_consistency, dif_neg hr]
    have hp : (p.enforce_arc tail head).1 = p :=
      enforce_arc_snd_false p tail head (by simpa using hr)
    refine ih ?_ t h (by rw [hp]; exact ht) (by rw [hp]; exact hh) hne
    intro t' h' ht' hh' hne'
    rw [hp] at ht' hh' ⊢
    rcases H t' h' ht' hh' hne' with hmem | hok
    · rcases List.mem_cons.mp hmem with heq | hmem'
      · have h1 : t' = tail := congrArg Prod.fst heq
        have h2 : h' = head := congrArg Prod.snd heq
        subst h1; subst h2
        right
        simpa using hr
      · left; exact hmem'
    · right; exact hok

/-- A worklist all of whose arcs are already consistent does nothing. -/
theorem run_ac_noop (p : BinaryCSP V) (arcs : List (Nat × Nat))
    (H : ∀ a ∈ arcs, (p.enforce_arc a.1 a.2).2 = false) :
    run_arc_consistency p arcs = p := by
  induction arcs with
  | nil => rw [run_arc_consistency]
  | cons a rest ih =>
    obtain ⟨tail, head⟩ := a
    rw [run_arc_consistency]
    have hf : (p.enforce_arc tail head).2 = false := H _ (List.mem_cons_self _ _)
    rw [dif_neg (by simp [hf]), enforce_arc_snd_false p tail head hf]
    exact ih (fun a ha => H a (List.mem_cons_of_mem _ ha))

/-- Membership in the full initial worklist of `check_all_arcs`. -/
theorem mem_all_arcs (n t h : Nat) :
    (t, h) ∈ all_arcs n ↔ t < n ∧ h < n ∧ t ≠ h := by
  simp only [all_arcs, List.mem_flatMap, List.mem_map, List.mem_filter, List.mem_range]
  constructor
  · rintro ⟨a, ha, b, ⟨hb, hba⟩, heq⟩
    have h1 : a = t := congrArg Prod.fst heq
    have h2 : b = h := congrArg Prod.snd heq
    subst h1; subst h2
    exact ⟨ha, hb, fun hth => by simp [hth] at hba⟩
  · rintro ⟨ht, hh, hne⟩
    exact ⟨t, ht, h, ⟨hh, by simpa using Ne.symm hne⟩, rfl⟩

/-- A successful dictionary lookup returns a stored entry. -/
theorem lookupC_mem {k : Nat × Nat} {c : V → V → Bool}
    {l : List ((Nat × Nat) × (V → V → Bool))} (h : lookupC k l = some c) :
    (k, c) ∈ l := by
  induction l with
  | nil => simp [lookupC] at h
  | cons kv rest ih =>
    obtain ⟨k2, c2⟩ := kv
    rw [lookupC] at h
    by_cases hk : k = k2
    · rw [if_pos hk] at h
      cases hk
      cases Option.some.inj h
      exact List.mem_cons_self _ _
    · rw [if_neg hk] at h
      exact List.mem_cons_of_mem _ (ih h)

/-- With distinct keys, lookup finds exactly the stored entry. -/
theorem lookupC_of_mem_nodup {l : List ((Nat × Nat) × (V → V → Bool))}
    (hnd : (l.map Prod.fst).Nodup) {k : Nat × Nat} {c : V → V → Bool}
    (hm : (k, c) ∈ l) : lookupC k l = some c := by
  induction l with
  | nil => simp at hm
  | cons kv rest ih =>
    obtain ⟨k2, c2⟩ := kv
    rw [List.map_cons] at hnd
    have hnd1 := (List.nodup_cons.mp hnd).1
    have hnd2 := (List.nodup_cons.mp hnd).2
    rw [lookupC]
    rcases List.mem_cons.mp hm with heq | hmem
    · cases heq
      rw [if_pos rfl]
    · by_cases hk : k = k2
      · exfalso
        subst hk
        have hin : k ∈ rest.map Prod.fst := List.mem_map_of_mem Prod.fst hmem
        exact hnd1 hin
      · rw [if_neg hk]
        exact ih hnd2 hmem

theorem conflicted_none_left (p : BinaryCSP V) (a b : Nat) (y : Option V) :
    p.conflicted a none b y = false := by
  unfold conflicted
  cases y <;> rfl

theorem conflicted_none_right (p : BinaryCSP V) (a b : Nat) (x : Option V) :
    p.conflicted a x b none = false := by
  unfold conflicted
  cases x <;> rfl

/-- `conflicted` is symmetric in its two variable/value pairs (for distinct
variables). -/
theorem conflicted_comm (p : BinaryCSP V) {a b : Nat} (hab : a ≠ b)
    (x y : Option V) : p.conflicted a x b y = p.conflicted b y a x := by
  cases x with
  | none => rw [conflicted_none_left, conflicted_none_right]
  | some v1 =>
    cases y with
    | none => rw [conflicted_none_left, conflicted_none_right]
    | some v2 =>
      unfold conflicted
      rw [min_comm b a, max_comm b a]
      cases hl : lookupC (min a b, max a b) p.constraints with
      | none => rfl
      | some c =>
        show (if a < b then !(c v1 v2) else !(c v2 v1)) =
          (if b < a then !(c v2 v1) else !(c v1 v2))
        rcases Nat.lt_trichotomy a b with h | h | h
        · rw [if_pos h, if_neg (Nat.lt_asymm h)]
        · exact absurd h hab
        · rw [if_neg (Nat.lt_asymm h), if_pos h]

/-- What a true `conflicted` result implies: both values assigned, a stored
constraint under the canonical key, and the suitably oriented predicate
false. -/
theorem conflicted_true_elim (p : BinaryCSP V) (a b : Nat) (x y : Option V)
    (h : p.conflicted a x b y = true) :
    ∃ v1 v2 c, x = some v1 ∧ y = some v2 ∧
      lookupC (min a b, max a b) p.constraints = some c ∧
      (if a < b then c v1 v2 else c v2 v1) = false := by
  cases x with
  | none => rw [conflicted_none_left] at h; exact absurd h (by simp)
  | some v1 =>
    cases y with
    | none => rw [conflicted_none_right] at h; exact absurd h (by simp)
    | some v2 =>
      unfold conflicted at h
      cases hl : lookupC (min a b, max a b) p.constraints with
      | none => rw [hl] at h; exact absurd h (by simp)
      | some c =>
        rw [hl] at h
        have h2 : (if a < b then !(c v1 v2) else !(c v2 v1)) = true := h
        refine ⟨v1, v2, c, rfl, rfl, rfl, ?_⟩
        by_cases hab : a < b
        · rw [if_pos hab] at h2 ⊢
          cases hcv : c v1 v2
          · rfl
          · rw [hcv] at h2; simp at h2
        · rw [if_neg hab] at h2 ⊢
          cases hcv : c v2 v1
          · rfl
          · rw [hcv] at h2; simp at h2

/-- In a solution, every stored constraint has both endpoints assigned and its
predicate satisfied. -/
theorem is_solution_entry (p : BinaryCSP V) (hs : p.is_solution = true) :
    ∀ kv ∈ p.constraints, ∃ va vb, p.values.getD kv.1.1 none = some va ∧
      p.values.getD kv.1.2 none = some vb ∧ kv.2 va vb = true := by
  unfold is_solution at hs
  rw [Bool.and_eq_true] at hs
  have hall := List.all_eq_true.mp hs.2
  intro kv hkv
  have hthis := hall kv hkv
  cases hva : p.values.getD kv.1.1 none with
  | none => rw [hva] at hthis; simp at hthis
  | some va =>
    cases hvb : p.values.getD kv.1.2 none with
    | none => rw [hva, hvb] at hthis; simp at hthis
    | some vb =>
      rw [hva, hvb] at hthis
      exact ⟨va, vb, rfl, rfl, by simpa using hthis⟩

/-- In a solution, no pair of distinct variables is in conflict under the
current assignment. -/
theorem solution_no_conflict (p : BinaryCSP V) (hs : p.is_solution = true)
    {a b : Nat} (hab : a ≠ b) :
    p.conflicted a (p.values.getD a none) b (p.values.getD b none) = false := by
  have key : ∀ a b : Nat, a < b →
      p.conflicted a (p.values.getD a none) b (p.values.getD b none) = false := by
    intro a b hlt
    cases hva : p.values.getD a none with
    | none => rw [conflicted_none_left]
    | some va =>
      cases hvb : p.values.getD b none with
      | none => rw [conflicted_none_right]
      | some vb =>
        unfold conflicted
        cases hl : lookupC (min a b, max a b) p.constraints with
        | none => rfl
        | some c =>
          have hmin : min a b = a := Nat.min_eq_left (Nat.le_of_lt hlt)
          have hmax : max a b = b := Nat.max_eq_right (Nat.le_of_lt hlt)
          obtain ⟨va', vb', h1, h2, h3⟩ := is_solution_entry p hs _ (lookupC_mem hl)
          rw [hmin, hva] at h1
          rw [hmax, hvb] at h2
          cases Option.some.inj h1
          cases Option.some.inj h2
          have h3' : c va vb = true := h3
          show (if a < b then !(c va vb) else !(c vb va)) = false
          rw [if_pos hlt, h3']
          rfl
  rcases Nat.lt_trichotomy a b with h | h | h
  · exact key a b h
  · exact absurd h hab
  · rw [conflicted_comm p hab]
    exact key b a h

/-- Fueled transcription agrees with the loop: some finite fuel reaches the
empty queue and returns the worklist's result. -/
theorem run_ac_fuel_total (p : BinaryCSP V) (arcs : List (Nat × Nat)) :
    ∃ fuel, run_arc_consistency_fuel fuel p arcs = some (run_arc_consistency p arcs) := by
  induction p, arcs using run_arc_consistency.induct with
  | case1 p =>
    refine ⟨1, ?_⟩
    rw [run_arc_consistency]
    rfl
  | case2 p tail head rest pr hr ih =>
    obtain ⟨f, hf⟩ := ih
    refine ⟨f + 1, ?_⟩
    rw [run_arc_consistency, dif_pos hr, run_arc_consistency_fuel, if_pos hr]
    exact hf
  | case3 p tail head rest pr hr ih =>
    obtain ⟨f, hf⟩ := ih
    refine ⟨f + 1, ?_⟩
    rw [run_arc_consistency, dif_neg hr, run_arc_consistency_fuel, if_neg hr]
    exact hf

/-- Domains only shrink along the enforcement sequence of `forward_check`. -/
theorem foldl_enforce_getD_sublist (var : Nat) (l : List Nat) (q : BinaryCSP V) (i : Nat) :
    ((l.foldl (fun q tail => (q.enforce_arc tail var).1) q).domains.getD i []).Sublist
      (q.domains.getD i []) := by
  induction l generalizing q with
  | nil => exact List.Sublist.refl _
  | cons a rest ih =>
    rw [List.foldl_cons]
    exact (ih _).trans (enforce_arc_getD_sublist q a var i)

/-- Bridge between list-filter counting over `List.range` and `Finset`
summation. -/
theorem countP_range (n : Nat) (f : Nat → Bool) :
    ((List.range n).filter f).length = ∑ i in Finset.range n, (if f i = true then 1 else 0) := by
  induction n with
  | zero => simp
  | succ m ih =>
    rw [List.range_succ, List.filter_append, List.length_append, ih, Finset.sum_range_succ]
    have hone : (([m] : List Nat).filter f).length = if f m = true then 1 else 0 := by
      by_cases hm : f m = true <;> simp [hm]
    rw [hone]

/-- Bridge between list-map summation over `List.range` and `Finset`
summation. -/
theorem sum_map_range (n : Nat) (g : Nat → Nat) :
    ((List.range n).map g).sum = ∑ i in Finset.range n, g i := by
  induction n with
  | zero => simp
  | succ m ih =>
    rw [List.range_succ, List.map_append, List.sum_append, ih, Finset.sum_range_succ]
    simp

/-- A symmetric, irreflexive set of ordered pairs has twice as many elements
as its strictly increasing half. -/
theorem card_filter_symm_pairs (T : Finset (Nat × Nat))
    (hsymm : ∀ a b, (a, b) ∈ T → (b, a) ∈ T)
    (hirr : ∀ a, (a, a) ∉ T) :
    T.card = 2 * (T.filter (fun x => x.1 < x.2)).card := by
  classical
  have hne : ∀ x ∈ T, (x : Nat × Nat).1 ≠ x.2 := by
    intro x hx heq
    obtain ⟨a, b⟩ := x
    have hab : a = b := heq
    subst hab
    exact hirr a hx
  have hsplit : T.filter (fun x => ¬x.1 < x.2) = T.filter (fun x => x.2 < x.1) := by
    ext x
    simp only [Finset.mem_filter, and_congr_right_iff]
    intro hx
    have := hne x hx
    omega
  have h2 : (T.filter (fun x => x.2 < x.1)).card = (T.filter (fun x => x.1 < x.2)).card := by
    refine Finset.card_bij (fun x _ => (x.2, x.1)) ?_ ?_ ?_
    · rintro ⟨a, b⟩ ha
      rw [Finset.mem_filter] at ha ⊢
      exact ⟨hsymm a b ha.1, ha.2⟩
    · rintro ⟨a, b⟩ ha ⟨c, d⟩ hc heq
      have h1 : b = d := congrArg Prod.fst heq
      have h2 : a = c := congrArg Prod.snd heq
      rw [h1, h2]
    · rintro ⟨a, b⟩ hb
      rw [Finset.mem_filter] at hb
      exact ⟨(b, a), Finset.mem_filter.mpr ⟨hsymm a b hb.1, hb.2⟩, rfl⟩
  have hpart := Finset.filter_card_add_filter_neg_card_eq_card
    (s := T) (p := fun x => x.1 < x.2)
  rw [hsplit, h2] at hpart
  omega

/-- `copy` returns a state equal (as a value) to the original: Python's list
slices are fresh lists with the same elements. -/
theorem copy_eq (p : BinaryCSP V) : p.copy = p := by
  unfold copy
  rw [List.map_id']

/-- Inequality constraint used by the concrete test fixtures (`neq` in
csp.py). -/
def neqC : Nat → Nat → Bool := fun a b => decide (a ≠ b)

/-- The `DemoProb` map-colouring problem of csp.py, with the colours
`r, g, b` coded as `0, 1, 2`. -/
def demoProb : BinaryCSP Nat :=
  { domains := [[0, 1, 2], [0, 1, 2], [0, 1, 2], [0, 1, 2], [0, 1, 2]],
    values := [none, none, none, none, none],
    constraints :=
      [((0, 1), neqC), ((0, 2), neqC), ((0, 3), neqC), ((1, 4), neqC), ((2, 4), neqC)],
    use_forward_checking := false,
    use_arc_consistency := false }

/-- `demoProb` with a partial assignment that violates constraints (0,1) and
(1,4) and leaves variable 3 unassigned. -/
def demoAssigned : BinaryCSP Nat :=
  { demoProb with values := [some 0, some 0, some 1, none, some 0] }

/-- `demoProb` with a complete conflict-free assignment. -/
def demoSolved : BinaryCSP Nat :=
  { demoProb with values := [some 0, some 1, some 1, some 1, some 0] }

/-- A two-variable problem with forward checking enabled whose second
variable is already assigned. -/
def demoFC : BinaryCSP Nat :=
  { domains := [[5], [5]], values := [none, some 5],
    constraints := [((0, 1), neqC)],
    use_forward_checking := true, use_arc_consistency := false }

/-- A two-variable problem whose head domain is empty. -/
def demoEmptyHead : BinaryCSP Nat :=
  { domains := [[0, 1], []], values := [none, none],
    constraints := [((0, 1), neqC)],
    use_forward_checking := false, use_arc_consistency := false }

/-- Two mutually conflicting assigned variables with collapsed domains. -/
def cexC5 : BinaryCSP Nat :=
  { domains := [[0], [0]], values := [some 0, some 0],
    constraints := [((0, 1), neqC)],
    use_forward_checking := false, use_arc_consistency := false }

/-- Claim C1: `conflicted(var1, val1, var2, val2)` returns false when either
value is unassigned (`None`) or no constraint is stored for the unordered
pair; otherwise it returns true iff the stored predicate is violated, where
the lookup canonicalizes the key to `(min, max)` and, when `var1 > var2`, the
arguments are swapped before the stored predicate is applied. -/
theorem cspfun_C1 (p : BinaryCSP V) (var1 var2 : Nat) (val1 val2 : Option V) :
    ((val1 = none ∨ val2 = none) → p.conflicted var1 val1 var2 val2 = false)
    ∧ (lookupC (min var1 var2, max var1 var2) p.constraints = none →
        p.conflicted var1 val1 var2 val2 = false)
    ∧ (∀ v1 v2 c, val1 = some v1 → val2 = some v2 →
        lookupC (min var1 var2, max var1 var2) p.constraints = some c →
        ((var1 < var2 → p.conflicted var1 val1 var2 val2 = !(c v1 v2))
          ∧ (var2 < var1 → p.conflicted var1 val1 var2 val2 = !(c v2 v1)))) := by
  refine ⟨?_, ?_, ?_⟩
  · rintro (rfl | rfl)
    · exact conflicted_none_left p var1 var2 val2
    · exact conflicted_none_right p var1 var2 val1
  · intro hl
    cases val1 with
    | none => exact conflicted_none_left p var1 var2 val2
    | some v1 =>
      cases val2 with
      | none => exact conflicted_none_right p var1 var2 (some v1)
      | some v2 =>
        unfold conflicted
        rw [hl]
  · rintro v1 v2 c rfl rfl hl
    have hval : p.conflicted var1 (some v1) var2 (some v2) =
        (if var1 < var2 then !(c v1 v2) else !(c v2 v1)) := by
      unfold conflicted
      rw [hl]
    constructor
    · intro hlt
      rw [hval, if_pos hlt]
    · intro hlt
      rw [hval, if_neg (Nat.lt_asymm hlt)]

/-- Witness for C1 on the `DemoProb` fixture: an unassigned value, a missing
constraint, and both orientations of the stored predicate. -/
theorem cspfun_C1_witness :
    demoProb.conflicted 0 none 1 (some 0) = false
    ∧ demoProb.conflicted 3 (some 0) 4 (some 0) = false
    ∧ demoProb.conflicted 0 (some 1) 1 (some 1) = !(neqC 1 1)
    ∧ demoProb.conflicted 4 (some 2) 1 (some 2) = !(neqC 2 2) :=
  ⟨(cspfun_C1 demoProb 0 1 none (some 0)).1 (Or.inl rfl),
   (cspfun_C1 demoProb 3 4 (some 0) (some 0)).2.1 rfl,
   ((cspfun_C1 demoProb 0 1 (some 1) (some 1)).2.2 1 1 neqC rfl rfl rfl).1 (by decide),
   ((cspfun_C1 demoProb 4 1 (some 2) (some 2)).2.2 2 2 neqC rfl rfl rfl).2 (by decide)⟩

/-- Claim C2: `enforce_arc(tail, head)` returns false and changes nothing
when no constraint is stored for the pair; otherwise it replaces the tail's
domain with exactly those of its values that have a non-conflicting value in
the head's current domain (all removed when the head's domain is empty), and
it returns true iff the tail's domain strictly shrank. -/
theorem cspfun_C2 (p : BinaryCSP V) (t h : Nat) :
    (lookupC (min t h, max t h) p.constraints = none → p.enforce_arc t h = (p, false))
    ∧ (∀ c, lookupC (min t h, max t h) p.constraints = some c →
        ((∀ i, i ≠ t → (p.enforce_arc t h).1.domains.getD i [] = p.domains.getD i [])
          ∧ (∀ v, v ∈ (p.enforce_arc t h).1.domains.getD t [] ↔
              v ∈ p.domains.getD t [] ∧
                ∃ hv ∈ p.domains.getD h [], p.conflicted t (some v) h (some hv) = false)
          ∧ (p.domains.getD h [] = [] → (p.enforce_arc t h).1.domains.getD t [] = [])
          ∧ (p.enforce_arc t h).1.values = p.values))
    ∧ ((p.enforce_arc t h).2 = true ↔
        ((p.enforce_arc t h).1.domains.getD t []).length < (p.domains.getD t []).length) := by
  refine ⟨?_, ?_, ?_⟩
  · intro hl
    exact enforce_arc_of_none p t h hl
  · intro c hl
    have htail := enforce_arc_getD_tail p t h c hl
    refine ⟨fun i hi => enforce_arc_getD_ne p t h i hi, ?_, ?_, enforce_arc_values p t h⟩
    · intro v
      rw [htail, List.mem_filter]
      unfold hasSupport
      rw [List.any_eq_true]
      constructor
      · rintro ⟨hmem, hv, hvmem, hvc⟩
        exact ⟨hmem, hv, hvmem, Bool.eq_false_iff.mpr
          (fun hc => by rw [hc] at hvc; exact absurd hvc (by decide))⟩
      · rintro ⟨hmem, hv, hvmem, hvc⟩
        exact ⟨hmem, hv, hvmem, by rw [hvc]; rfl⟩
    · intro he
      rw [htail]
      unfold hasSupport
      rw [he]
      simp
  · cases hl : lookupC (min t h, max t h) p.constraints with
    | none =>
      rw [enforce_arc_of_none p t h hl]
      simp
    | some c =>
      have htail := enforce_arc_getD_tail p t h c hl
      have hflag : (p.enforce_arc t h).2 =
          decide (((p.domains.getD t []).filter (p.hasSupport t h)).length <
            (p.domains.getD t []).length) := by
        unfold enforce_arc
        rw [hl]
      rw [hflag, htail]
      simp

/-- Witness for C2: a pair with no constraint on the `DemoProb` fixture, and
domain wipe-out on an empty head domain. -/
theorem cspfun_C2_witness :
    demoProb.enforce_arc 3 4 = (demoProb, false)
    ∧ (demoEmptyHead.enforce_arc 0 1).1.domains.getD 0 [] = [] :=
  ⟨(cspfun_C2 demoProb 3 4).1 rfl,
   ((cspfun_C2 demoEmptyHead 0 1).2.1 neqC rfl).2.2.1 rfl⟩

/-- `num_conflicts` at the current assignment counts the variables that
`conflictsWith` the given one. -/
theorem num_conflicts_eq_filter (p : BinaryCSP V) (a : Nat) :
    p.num_conflicts a (p.values.getD a none) =
      ((List.range p.values.length).filter (p.conflictsWith a)).length := rfl

theorem conflictsWith_symm (p : BinaryCSP V) (a b : Nat) :
    p.conflictsWith a b = p.conflictsWith b a := by
  unfold conflictsWith
  rcases eq_or_ne a b with rfl | hne
  · rfl
  · rw [conflicted_comm p hne]
    congr 1
    exact decide_eq_decide.mpr ⟨Ne.symm, Ne.symm⟩

theorem conflictsWith_irrefl (p : BinaryCSP V) (a : Nat) :
    p.conflictsWith a a = false := by
  unfold conflictsWith
  simp

/-- Claim C3: `set_var_val` fails exactly when the value is not in the
variable's current domain — and, the embedding being functional, a failure
produces no new state, so domains and assignment are untouched (atomicity);
on success it records the assignment, collapses the variable's domain to the
single value, and then runs forward checking if that mode is on, else arc
consistency seeded with all arcs into the variable if that mode is on. -/
theorem cspfun_C3 [DecidableEq V] (p : BinaryCSP V) (var : Nat) (val : V)
    (hvar : var < p.values.length) :
    ((∃ msg, p.set_var_val var val = Except.error msg) ↔ val ∉ p.domains.getD var [])
    ∧ (val ∈ p.domains.getD var [] →
        p.set_var_val var val = Except.ok
          (if (p.collapse var val).use_forward_checking then
            forward_check_run (p.collapse var val) var
          else if (p.collapse var val).use_arc_consistency then
            (p.collapse var val).run_arc_consistency (arcs_into (p.collapse var val) var)
          else p.collapse var val)) := by
  have hgetv : (p.collapse var val).values.getD var none = some val := by
    unfold collapse
    exact getD_set_self _ _ _ _ hvar
  have hok : val ∈ p.domains.getD var [] →
      p.set_var_val var val = Except.ok
        (if (p.collapse var val).use_forward_checking then
          forward_check_run (p.collapse var val) var
        else if (p.collapse var val).use_arc_consistency then
          (p.collapse var val).run_arc_consistency (arcs_into (p.collapse var val) var)
        else p.collapse var val) := by
    intro hmem
    unfold set_var_val
    rw [if_pos hmem]
    by_cases hfc : (p.collapse var val).use_forward_checking
    · rw [if_pos hfc, if_pos hfc]
      unfold forward_check
      rw [hgetv]
    · rw [if_neg hfc, if_neg hfc]
      by_cases hac : (p.collapse var val).use_arc_consistency
      · rw [if_pos hac, if_pos hac]
      · rw [if_neg hac, if_neg hac]
  refine ⟨⟨?_, ?_⟩, hok⟩
  · rintro ⟨msg, hmsg⟩ hmem
    rw [hok hmem] at hmsg
    exact absurd hmsg (by simp)
  · intro hmem
    refine ⟨"value is not in the domain of the variable", ?_⟩
    unfold set_var_val
    rw [if_neg hmem]

/-- Witness for C3 on the forward-checking fixture: rejection of an
out-of-domain value and the success shape for an in-domain value. -/
theorem cspfun_C3_witness :
    ((∃ msg, demoFC.set_var_val 0 9 = Except.error msg) ↔ 9 ∉ demoFC.domains.getD 0 [])
    ∧ demoFC.set_var_val 0 5 = Except.ok
        (if (demoFC.collapse 0 5).use_forward_checking then
          forward_check_run (demoFC.collapse 0 5) 0
        else if (demoFC.collapse 0 5).use_arc_consistency then
          (demoFC.collapse 0 5).run_arc_consistency (arcs_into (demoFC.collapse 0 5) 0)
        else demoFC.collapse 0 5) :=
  ⟨(cspfun_C3 demoFC 0 9 (by decide)).1,
   (cspfun_C3 demoFC 0 5 (by decide)).2 (by decide)⟩

/-- Counterexample to claim C5: from a state satisfying the
assigned-variable invariant, one `enforce_arc` step empties the domain of
the assigned variable 0 (its value 0 has no support in the other collapsed
domain), so the reached state violates the invariant. -/
theorem cspfun_C5_cex :
    AssignedInv cexC5 ∧ ¬ AssignedInv ((cexC5.enforce_arc 0 1).1) := by
  constructor
  · intro i hi v hv
    have hi2 : i < 2 := by simpa [cexC5] using hi
    interval_cases i
    · simp only [cexC5] at hv ⊢
      cases Option.some.inj hv
      rfl
    · simp only [cexC5] at hv ⊢
      cases Option.some.inj hv
      rfl
  · intro hco
    have h1 := hco 0 (by decide) 0 (by rfl)
    have hres : (cexC5.enforce_arc 0 1).1.domains.getD 0 [] = [] := by rfl
    rw [hres] at h1
    exact absurd h1 (by decide)

/-- Claim C5, amended: the assigned-variable invariant (every assigned
variable's domain is exactly the one-element sequence holding its value) is
preserved by `set_var_val` when both propagation modes are off, and by
`copy`; it is not preserved by `enforce_arc` (and hence by
`run_arc_consistency`, by propagating `set_var_val`, or by the local-search
loop, which reassigns values without touching domains), as the
counterexample shows. -/
theorem cspfun_C5 [DecidableEq V] (p : BinaryCSP V) (var : Nat) (val : V)
    (q : BinaryCSP V)
    (hfc : p.use_forward_checking = false) (hac : p.use_arc_consistency = false)
    (hvar : var < p.values.length) (hlen : p.domains.length = p.values.length)
    (hinv : AssignedInv p) (hok : p.set_var_val var val = Except.ok q) :
    AssignedInv q ∧ AssignedInv p.copy := by
  constructor
  · have hfc' : (p.collapse var val).use_forward_checking = false := hfc
    have hac' : (p.collapse var val).use_arc_consistency = false := hac
    have hq : q = p.collapse var val := by
      unfold set_var_val at hok
      by_cases hmem : val ∈ p.domains.getD var []
      · rw [if_pos hmem, if_neg (by rw [hfc']; exact Bool.false_ne_true),
          if_neg (by rw [hac']; exact Bool.false_ne_true)] at hok
        exact (Except.ok.inj hok).symm
      · rw [if_neg hmem] at hok
        exact absurd hok (by simp)
    subst hq
    intro i hi v hv
    unfold collapse at hi hv ⊢
    rw [List.length_set] at hi
    rcases eq_or_ne i var with rfl | hne
    · rw [getD_set_self _ _ _ _ hvar] at hv
      cases Option.some.inj hv
      exact getD_set_self _ _ _ _ (by omega)
    · rw [getD_set_ne _ _ _ _ _ (fun hv2 => hne hv2.symm)] at hv
      rw [getD_set_ne _ _ _ _ _ (fun hv2 => hne hv2.symm)]
      exact hinv i hi v hv
  · rw [copy_eq]
    exact hinv

/-- Witness for C5 (amended): assigning on the `DemoProb` fixture with both
propagation modes off preserves the invariant, as does `copy`. -/
theorem cspfun_C5_witness :
    demoProb.set_var_val 0 2 = Except.ok (demoProb.collapse 0 2)
    ∧ AssignedInv (demoProb.collapse 0 2)
    ∧ AssignedInv demoProb.copy := by
  have h := cspfun_C5 demoProb 0 2 (demoProb.collapse 0 2) rfl rfl (by decide) (by decide)
    (fun i hi v hv => by
      have : i < 5 := by simpa [demoProb] using hi
      interval_cases i <;> simp [demoProb] at hv)
    rfl
  exact ⟨rfl, h.1, h.2⟩

/-- Claim C6 (domain monotonicity): `set_var_val`, `enforce_arc`,
`run_arc_consistency` and `check_all_arcs` each leave every variable's
domain a subsequence of its previous domain — no operation ever adds a
value. -/
theorem cspfun_C6 [DecidableEq V] :
    (∀ (p : BinaryCSP V) (t h i : Nat),
        ((p.enforce_arc t h).1.domains.getD i []).Sublist (p.domains.getD i []))
    ∧ (∀ (p : BinaryCSP V) (arcs : List (Nat × Nat)) (i : Nat),
        ((p.run_arc_consistency arcs).domains.getD i []).Sublist (p.domains.getD i []))
    ∧ (∀ (p : BinaryCSP V) (i : Nat),
        (p.check_all_arcs.domains.getD i []).Sublist (p.domains.getD i []))
    ∧ (∀ (p q : BinaryCSP V) (var : Nat) (val : V),
        p.set_var_val var val = Except.ok q →
        ∀ i, (q.domains.getD i []).Sublist (p.domains.getD i [])) := by
  have hcol : ∀ (p : BinaryCSP V) (var : Nat) (val : V), val ∈ p.domains.getD var [] →
      ∀ i, ((p.collapse var val).domains.getD i []).Sublist (p.domains.getD i []) := by
    intro p var val hmem i
    unfold collapse
    rcases eq_or_ne i var with rfl | hne
    · by_cases hvd : i < p.domains.length
      · rw [getD_set_self _ _ _ _ hvd]
        exact List.singleton_sublist.mpr hmem
      · rw [List.getD_eq_default _ _ (by omega)] at hmem
        exact absurd hmem (by simp)
    · rw [getD_set_ne _ _ _ _ _ (fun h2 => hne h2.symm)]
  refine ⟨enforce_arc_getD_sublist, run_ac_getD_sublist, ?_, ?_⟩
  · intro p i
    exact run_ac_getD_sublist p _ i
  · intro p q var val hok i
    unfold set_var_val at hok
    by_cases hmem : val ∈ p.domains.getD var []
    · rw [if_pos hmem] at hok
      by_cases hfc : (p.collapse var val).use_forward_checking
      · rw [if_pos hfc] at hok
        unfold forward_check at hok
        cases hg : (p.collapse var val).values.getD var none with
        | none => rw [hg] at hok; exact absurd hok (by simp)
        | some w =>
          rw [hg] at hok
          cases Except.ok.inj hok
          unfold forward_check_run
          exact (foldl_enforce_getD_sublist var _ _ i).trans (hcol p var val hmem i)
      · rw [if_neg hfc] at hok
        by_cases hac : (p.collapse var val).use_arc_consistency
        · rw [if_pos hac] at hok
          cases Except.ok.inj hok
          exact (run_ac_getD_sublist _ _ i).trans (hcol p var val hmem i)
        · rw [if_neg hac] at hok
          cases Except.ok.inj hok
          exact hcol p var val hmem i
    · rw [if_neg hmem] at hok
      exact absurd hok (by simp)

/-- Witness for C6: a successful assignment on `DemoProb` with the collapsed
domain a subsequence of the original. -/
theorem cspfun_C6_witness :
    demoProb.set_var_val 0 0 = Except.ok (demoProb.collapse 0 0)
    ∧ ((demoProb.collapse 0 0).domains.getD 0 []).Sublist (demoProb.domains.getD 0 []) :=
  ⟨by rfl, cspfun_C6.2.2.2 demoProb (demoProb.collapse 0 0) 0 0 (by rfl) 0⟩

/-- Claim C7 (termination): the worklist loop of `run_arc_consistency`
always reaches an empty queue — some finite fuel makes the step-for-step
fueled transcription of the loop return, with the loop's result. -/
theorem cspfun_C7 (p : BinaryCSP V) (arcs : List (Nat × Nat)) :
    ∃ fuel, run_arc_consistency_fuel fuel p arcs = some (p.run_arc_consistency arcs) :=
  run_ac_fuel_total p arcs

/-- Claim C8 (idempotence): running `check_all_arcs` a second time
immediately after a first run changes nothing — in particular no domain. -/
theorem cspfun_C8 (p : BinaryCSP V) :
    p.check_all_arcs.check_all_arcs = p.check_all_arcs := by
  unfold check_all_arcs
  rw [run_ac_values]
  refine run_ac_noop _ _ ?_
  intro a ha
  obtain ⟨t, h⟩ := a
  rw [mem_all_arcs] at ha
  exact run_ac_invariant p (all_arcs p.values.length)
    (fun t h ht hh hne => Or.inl ((mem_all_arcs _ _ _).mpr ⟨ht, hh, hne⟩))
    t h ha.1 ha.2.1 ha.2.2

/-- Claim C9: `bts_priority` pops more-assigned instantiations first — fewer
unassigned entries give strictly smaller priority, and with equal unassigned
counts and equal sibling counts the child rank breaks ties. -/
theorem cspfun_C9 (p q : BinaryCSP V) (i n j m : Nat) (hi : i < n) (hj : j < m) :
    (unassigned_count p < unassigned_count q →
      bts_priority p i n < bts_priority q j m)
    ∧ (unassigned_count p = unassigned_count q → n = m → i < j →
      bts_priority p i n < bts_priority q j m) := by
  have hn : (0 : ℚ) < (n : ℚ) := by
    have : 0 < n := Nat.lt_of_le_of_lt (Nat.zero_le i) hi
    exact_mod_cast this
  have hm : (0 : ℚ) < (m : ℚ) := by
    have : 0 < m := Nat.lt_of_le_of_lt (Nat.zero_le j) hj
    exact_mod_cast this
  constructor
  · intro hlt
    unfold bts_priority
    have h1 : (i : ℚ) / (n : ℚ) < 1 := (div_lt_one hn).mpr (by exact_mod_cast hi)
    have h2 : (unassigned_count p : ℚ) + 1 ≤ (unassigned_count q : ℚ) := by
      exact_mod_cast hlt
    have h3 : (0 : ℚ) ≤ (j : ℚ) / (m : ℚ) :=
      div_nonneg (by positivity) (le_of_lt hm)
    linarith
  · rintro heq rfl hij
    unfold bts_priority
    rw [heq]
    have hfrac : (i : ℚ) / (n : ℚ) < (j : ℚ) / (n : ℚ) := by
      rw [div_lt_div_iff hn hn]
      have hij2 : (i : ℚ) < (j : ℚ) := by exact_mod_cast hij
      exact mul_lt_mul_of_pos_right hij2 hn
    linarith

/-- Witness for C9: a fully assigned fixture beats the fully unassigned one,
and sibling rank breaks the tie at equal depth. -/
theorem cspfun_C9_witness :
    bts_priority demoSolved 0 1 < bts_priority demoProb 0 1
    ∧ bts_priority demoProb 1 3 < bts_priority demoProb 2 3 :=
  ⟨(cspfun_C9 demoSolved demoProb 0 1 0 1 (by decide) (by decide)).1 (by decide),
   (cspfun_C9 demoProb demoProb 1 3 2 3 (by decide) (by decide)).2 rfl rfl (by decide)⟩

/-- Claim C10: whenever the local-search loop exits (its guard is the
negation of `is_solution`), `total_conflicts` is zero: a solution has no
violated constraint to count. -/
theorem cspfun_C10 (p : BinaryCSP V) (hs : p.is_solution = true) :
    p.total_conflicts = 0 := by
  unfold total_conflicts
  have hz : ∀ var ∈ List.range p.values.length,
      p.num_conflicts var (p.values.getD var none) = 0 := by
    intro var _
    unfold num_conflicts
    rw [List.length_eq_zero, List.filter_eq_nil]
    intro b _
    rcases eq_or_ne b var with rfl | hne
    · simp
    · rw [solution_no_conflict p hs (Ne.symm hne)]
      simp
  have hsum : ((List.range p.values.length).map
      (fun var => p.num_conflicts var (p.values.getD var none))).sum = 0 := by
    apply List.sum_eq_zero
    intro x hx
    rw [List.mem_map] at hx
    obtain ⟨var, hvar, rfl⟩ := hx
    exact hz var hvar
  rw [hsum]

/-- Witness for C10: the solved `DemoProb` fixture. -/
theorem cspfun_C10_witness :
    demoSolved.is_solution = true ∧ demoSolved.total_conflicts = 0 :=
  ⟨rfl, cspfun_C10 demoSolved rfl⟩

/-- Claim C4: with the constraint table canonical (keys `(i, j)` with
`i < j < n`, no duplicate keys), summing `num_conflicts` of each variable's
current value over all variables counts each violated stored pair exactly
twice, so the sum is even and Python 2's integer halving in
`total_conflicts` yields the exact count of violated stored constraints
(pairs with an unassigned member not counted). -/
theorem cspfun_C4 (p : BinaryCSP V)
    (hkeys : ∀ kv ∈ p.constraints, kv.1.1 < kv.1.2 ∧ kv.1.2 < p.values.length)
    (hnd : (p.constraints.map Prod.fst).Nodup) :
    ((List.range p.values.length).map
        (fun var => p.num_conflicts var (p.values.getD var none))).sum
      = 2 * p.violated_pairs_count
    ∧ p.total_conflicts = p.violated_pairs_count := by
  classical
  set T := (Finset.range p.values.length ×ˢ Finset.range p.values.length).filter
    (fun x => p.conflictsWith x.1 x.2 = true) with hT
  have hA : ((List.range p.values.length).map
      (fun var => p.num_conflicts var (p.values.getD var none))).sum
      = ∑ a in Finset.range p.values.length, ∑ b in Finset.range p.values.length,
          (if p.conflictsWith a b = true then 1 else 0) := by
    rw [sum_map_range]
    refine Finset.sum_congr rfl (fun a _ => ?_)
    rw [num_conflicts_eq_filter, countP_range]
  have hB : (∑ a in Finset.range p.values.length, ∑ b in Finset.range p.values.length,
      (if p.conflictsWith a b = true then 1 else 0)) = T.card := by
    rw [hT, Finset.card_filter, Finset.sum_product]
  have hsymm : ∀ a b, (a, b) ∈ T → (b, a) ∈ T := by
    intro a b hab
    rw [hT, Finset.mem_filter, Finset.mem_product] at hab ⊢
    exact ⟨⟨hab.1.2, hab.1.1⟩, by rw [conflictsWith_symm]; exact hab.2⟩
  have hirr : ∀ a, (a, a) ∉ T := by
    intro a ha
    rw [hT, Finset.mem_filter] at ha
    have h2 := ha.2
    rw [conflictsWith_irrefl] at h2
    simp at h2
  have hdouble := card_filter_symm_pairs T hsymm hirr
  have hndL : ((p.constraints.filter (violatesEntry p)).map Prod.fst).Nodup :=
    List.Nodup.sublist ((List.filter_sublist _).map _) hnd
  have hfin : ((p.constraints.filter (violatesEntry p)).map Prod.fst).toFinset
      = T.filter (fun x => x.1 < x.2) := by
    ext x
    obtain ⟨a, b⟩ := x
    rw [List.mem_toFinset, List.mem_map, Finset.mem_filter, hT, Finset.mem_filter,
      Finset.mem_product, Finset.mem_range, Finset.mem_range]
    constructor
    · rintro ⟨kv, hkvL, hfst⟩
      rw [List.mem_filter] at hkvL
      obtain ⟨hkvC, hviol⟩ := hkvL
      obtain ⟨⟨a2, b2⟩, c⟩ := kv
      have ha2 : a = a2 := (congrArg Prod.fst hfst).symm
      have hb2 : b = b2 := (congrArg Prod.snd hfst).symm
      subst ha2; subst hb2
      obtain ⟨hab, hbn⟩ := hkeys _ hkvC
      unfold violatesEntry at hviol
      cases hva : p.values.getD a none with
      | none => rw [hva] at hviol; simp at hviol
      | some va =>
        cases hvb : p.values.getD b none with
        | none => rw [hva, hvb] at hviol; simp at hviol
        | some vb =>
          rw [hva, hvb] at hviol
          have hcv : c va vb = false := by
            have h2 : (!(c va vb)) = true := hviol
            cases hx : c va vb
            · rfl
            · rw [hx] at h2; simp at h2
          have hlook : lookupC (min a b, max a b) p.constraints = some c := by
            rw [Nat.min_eq_left (Nat.le_of_lt hab), Nat.max_eq_right (Nat.le_of_lt hab)]
            exact lookupC_of_mem_nodup hnd hkvC
          have hconf : p.conflicted a (p.values.getD a none) b (p.values.getD b none)
              = true := by
            rw [hva, hvb]
            have hred : p.conflicted a (some va) b (some vb) =
                (if a < b then !(c va vb) else !(c vb va)) := by
              unfold conflicted
              rw [hlook]
            rw [hred, if_pos hab, hcv]
            rfl
          refine ⟨⟨⟨Nat.lt_trans hab hbn, hbn⟩, ?_⟩, hab⟩
          unfold conflictsWith
          rw [hconf]
          simp [Ne.symm (Nat.ne_of_lt hab)]
    · rintro ⟨⟨⟨han, hbn⟩, hW⟩, hab⟩
      unfold conflictsWith at hW
      rw [Bool.and_eq_true] at hW
      obtain ⟨v1, v2, c, hv1, hv2, hlook, hif⟩ :=
        conflicted_true_elim p a b _ _ hW.2
      rw [if_pos hab] at hif
      rw [Nat.min_eq_left (Nat.le_of_lt hab), Nat.max_eq_right (Nat.le_of_lt hab)] at hlook
      refine ⟨((a, b), c), ?_, rfl⟩
      rw [List.mem_filter]
      refine ⟨lookupC_mem hlook, ?_⟩
      show (match p.values.getD a none, p.values.getD b none with
            | some va, some vb => !(c va vb)
            | _, _ => false) = true
      rw [hv1, hv2]
      show (!(c v1 v2)) = true
      rw [hif]
      rfl
  have hKcard : (T.filter (fun x => x.1 < x.2)).card
      = (p.constraints.filter (violatesEntry p)).length := by
    rw [← hfin, List.toFinset_card_of_nodup hndL, List.length_map]
  have hS : ((List.range p.values.length).map
      (fun var => p.num_conflicts var (p.values.getD var none))).sum
      = 2 * p.violated_pairs_count := by
    rw [hA, hB, hdouble, hKcard]
    rfl
  refine ⟨hS, ?_⟩
  unfold total_conflicts
  rw [hS]
  exact Nat.mul_div_cancel_left _ (by norm_num)

/-- Witness for C4 on the partially assigned `DemoProb` fixture: two stored
constraints are violated, the per-variable sum is 4, and halving is exact. -/
theorem cspfun_C4_witness :
    ((List.range demoAssigned.values.length).map
        (fun var => demoAssigned.num_conflicts var (demoAssigned.values.getD var none))).sum
      = 2 * demoAssigned.violated_pairs_count
    ∧ demoAssigned.total_conflicts = demoAssigned.violated_pairs_count :=
  cspfun_C4 demoAssigned (by decide) (by decide)

end BinaryCSP
